import Mathlib

/-!
Verification of `src/linkedout/pdf_parser.py` (LinkedOut).

Strings are embedded as `List Char`.  Python regexes are embedded as
hand-written matchers over `List Char`; `\s`, `\d` and `\w` are modelled by
the ASCII character classes below (the source only ever meets ASCII text in
the patterns concerned).  The anchored patterns (`^...`) used with
`re.search`/`re.match` are embedded as prefix matchers, which is equivalent
because no input line contains a newline (lines come from `text.split("\n")`)
and `re.MULTILINE` is never set.
-/

/-- A line of text, as a list of characters. -/
abbrev Line := List Char

/-- Python `\s` (ASCII): the whitespace characters recognised by `str.strip()`
and by `\s` on the text at hand. -/
def isSpace (c : Char) : Bool :=
  c == ' ' || c == '\t' || c == '\n' || c == '\r' || c == '\x0b' || c == '\x0c'

/-- Python `\d` (ASCII). -/
def isDigit (c : Char) : Bool := '0' ≤ c && c ≤ '9'

/-- Python `\w` (ASCII): letters, digits and underscore; used for the `\b`
word boundaries of `\bMessage\b`. -/
def isWordChar (c : Char) : Bool := c.isAlphanum || c == '_'

/-- The footer pattern's bracket class `[\d/,: ]`. -/
def isFooterClass (c : Char) : Bool :=
  isDigit c || c == '/' || c == ',' || c == ':' || c == ' '

/-- Drop trailing characters satisfying `p` (the right half of Python
`str.strip`). -/
def dropTrailingP (p : Char → Bool) : Line → Line
  | [] => []
  | c :: t =>
    let r := dropTrailingP p t
    if r.isEmpty && p c then [] else c :: r

/-- Python `str.strip(chars)`: drop leading and trailing characters
satisfying `p`. -/
def stripP (p : Char → Bool) (s : Line) : Line :=
  dropTrailingP p (s.dropWhile p)

/-- Python `str.strip()` (whitespace). -/
def stripSp (s : Line) : Line := stripP isSpace s

/-- Case-sensitive literal prefix matcher: if `pat` is a prefix of `s`,
return the remainder of `s`. -/
def litPre : Line → Line → Option Line
  | [], s => some s
  | _ :: _, [] => none
  | p :: ps, c :: cs => if c = p then litPre ps cs else none

/-- Case-insensitive literal prefix matcher (models `re.I` on a literal). -/
def ciPre : Line → Line → Option Line
  | [], s => some s
  | _ :: _, [] => none
  | p :: ps, c :: cs => if c.toLower = p.toLower then ciPre ps cs else none

/-- `\s+`: at least one whitespace character, consumed greedily. -/
def ws1 : Line → Option Line
  | [] => none
  | c :: cs => if isSpace c then some (cs.dropWhile isSpace) else none

/-- `\d+`: at least one digit, consumed greedily. -/
def digits1 : Line → Option Line
  | [] => none
  | c :: cs => if isDigit c then some (cs.dropWhile isDigit) else none

/-- `HEADER_PATTERNS[0]`: `^Connections\s+\|\s+LinkedIn` with `re.I`.
Greedy consumption of each `\s+` is exact here because the character
following each `\s+` in the pattern is never a whitespace character. -/
def headerPat0 (s : Line) : Bool :=
  (((((ciPre ("connections").data s).bind ws1).bind
      (litPre ("|").data)).bind ws1).bind (ciPre ("linkedin").data)).isSome

/-- `HEADER_PATTERNS[1]`: `^\d+\s+connections$` with `re.I`. -/
def headerPat1 (s : Line) : Bool :=
  match ((digits1 s).bind ws1).bind (ciPre ("connections").data) with
  | some [] => true
  | _ => false

/-- `HEADER_PATTERNS[2]`: `^Sort by:` with `re.I`. -/
def headerPat2 (s : Line) : Bool :=
  (ciPre ("sort by:").data s).isSome

/-- `any(p.search(s) for p in HEADER_PATTERNS)`. -/
def headerAny (s : Line) : Bool :=
  headerPat0 s || headerPat1 s || headerPat2 s

/-- Does the whole remainder spell `AM` or `PM` (case-insensitively)?
Models `(AM|PM)$`. -/
def isAmPmEnd (s : Line) : Bool :=
  (match ciPre ("am").data s with | some [] => true | _ => false) ||
  (match ciPre ("pm").data s with | some [] => true | _ => false)

/-- NFA scan for the tail `\s+[\d/,: ]+(AM|PM)$` of the footer pattern,
after its first (mandatory) whitespace character has been consumed.
`a` is true while the run can still be inside `\s+`; `b` is true once at
least one `[\d/,: ]` character has been consumed.  Both states are tracked
simultaneously because `' '` belongs to both classes, which is exactly the
backtracking freedom of the Python regex. -/
def ftScan : Bool → Bool → Line → Bool
  | _, _, [] => false
  | a, b, c :: rest =>
    (b && isAmPmEnd (c :: rest)) ||
    ftScan (a && isSpace c) ((a || b) && isFooterClass c) rest

/-- The tail `\s+[\d/,: ]+(AM|PM)$`. -/
def footerTail : Line → Bool
  | [] => false
  | c :: rest => isSpace c && ftScan true false rest

/-- `FOOTER_PATTERN`: `^\d+\s+of\s+\d+\s+[\d/,: ]+(AM|PM)$` with `re.I`. -/
def footerPat (s : Line) : Bool :=
  match ((((digits1 s).bind ws1).bind (ciPre ("of").data)).bind ws1).bind digits1 with
  | some r => footerTail r
  | none => false

/-- `CONNECTED_ON.match`: `^Connected on\s+` with `re.I`. -/
def connMatch (s : Line) : Bool :=
  match ciPre ("connected on").data s with
  | some (c :: _) => isSpace c
  | _ => false

/-- `re.sub(r"^Connected on\s+", "", s)` — note: case-SENSITIVE, exactly as
in the source (the `re.I` flag of `CONNECTED_ON` is absent here). -/
def csSubConnectedOn (s : Line) : Line :=
  match litPre ("Connected on").data s with
  | some (c :: r) => if isSpace c then r.dropWhile isSpace else s
  | _ => s

/-- Is the next character position a `\b` boundary from the right, i.e. is
the remainder empty or starting with a non-word character? -/
def nextOkB : Line → Bool
  | [] => true
  | c :: _ => !isWordChar c

/-- Does `\bMessage\b` match at the start of `s`, given whether the previous
character (if any) was a non-word character (`pnw`)? -/
def msgHit (pnw : Bool) (s : Line) : Bool :=
  pnw && (litPre ("Message").data s).isSome && nextOkB (s.drop 7)

/-- One pass of `re.sub(r"\bMessage\b", "", s)`: scan left to right; on a
match, delete the seven matched characters and continue after them (the
character before the next scan position is then `'e'`, a word character, so
`pnw` becomes false); otherwise copy one character.  The inner `match t`
merely re-exposes the six characters `essage` that a hit guarantees are
present, so that the recursion is structural; its default branch is
unreachable. -/
def subMsgAux : Bool → Line → Line
  | _, [] => []
  | pnw, c :: t =>
    if msgHit pnw (c :: t) then
      match t with
      | _ :: _ :: _ :: _ :: _ :: _ :: rest => subMsgAux false rest
      | _ => []
    else c :: subMsgAux (!isWordChar c) t

/-- `re.sub(r"\bMessage\b", "", s)`. -/
def subMessage (s : Line) : Line := subMsgAux true s

/-- The body of the loop of `_drop_header_footer_and_message`, for one raw
line: strip; drop if empty; drop if any header pattern matches; drop if the
footer pattern matches; strip the `Message` tokens and re-strip; drop if
that leaves nothing; otherwise keep the cleaned line. -/
def sanitizeLine (l : Line) : Option Line :=
  let s := stripSp l
  if s.isEmpty then none
  else if headerAny s then none
  else if footerPat s then none
  else
    let s2 := stripSp (subMessage s)
    if s2.isEmpty then none else some s2

/-- `_drop_header_footer_and_message(raw_lines)`. -/
def dropHeaderFooterAndMessage (raw : List Line) : List Line :=
  raw.filterMap sanitizeLine

/-- `re.sub(r"\s+", " ", s)`: every maximal whitespace run becomes a single
space.  `inRun` records whether the previous character was whitespace. -/
def normWsAux : Bool → Line → Line
  | _, [] => []
  | inRun, c :: t =>
    if isSpace c then
      if inRun then normWsAux true t else ' ' :: normWsAux true t
    else c :: normWsAux false t

/-- `re.sub(r"\s+", " ", s)`. -/
def normWs (s : Line) : Line := normWsAux false s

/-- Python `s.split(sep, 1)` made total: the split of `s` at the FIRST
occurrence of `sep`, or `none` when `sep` does not occur (which is also the
`sep in s` test). -/
def splitFirst (sep : Line) : Line → Option (Line × Line)
  | [] => (litPre sep []).map (fun r => (([] : Line), r))
  | c :: t =>
    match litPre sep (c :: t) with
    | some r => some ([], r)
    | none => (splitFirst sep t).map (fun p => (c :: p.1, p.2))

/-- Python `x.strip().strip("|").strip()`, applied to each side of a split. -/
def trimField (x : Line) : Line :=
  stripSp (stripP (fun c => c == '|') (stripSp x))

/-- `_split_title_company(title_company)`. -/
def splitTitleCompany (s : Line) : Line × Line :=
  let tc := stripSp (normWs s)
  if tc.isEmpty then ([], [])
  else
    match splitFirst (" @ ").data tc with
    | some (l, r) => (trimField l, trimField r)
    | none =>
      match splitFirst (" at ").data tc with
      | some (l, r) => (trimField l, trimField r)
      | none => (tc, [])

/-- `" ".join(parts)`. -/
def joinSp : List Line → Line
  | [] => []
  | [l] => l
  | l :: ls => l ++ ' ' :: joinSp ls

/-- The output unit `(name, title, company, date_connected)`. -/
structure ConnectionRecord where
  name : Line
  title : Line
  company : Line
  connected_date : Line
deriving DecidableEq

/-- Whether a candidate record survives the final sanity check of
`extract_from_pdf`: `if not name or HEADER_PATTERNS[0].search(name) or
FOOTER_PATTERN.search(name): continue`. -/
def keepName (name : Line) : Bool :=
  !name.isEmpty && !headerPat0 name && !footerPat name

/-- The `while i < len(lines)` loop of `extract_from_pdf`, phrased on the
suffix of `lines` starting at the scan index `i`.  One outer iteration:
skip a leading `Connected on` line; otherwise take the line (stripped) as
the name, accumulate body lines up to the next `Connected on` line
(`takeWhile`/`dropWhile` render the inner `while`), take the date from that
line if present (the `dropWhile` guarantees the guard
`CONNECTED_ON.match(lines[i])` of the source holds for it), apply the
sanity check, and continue after the date line. -/
def segmentLines : List Line → List ConnectionRecord
  | [] => []
  | l :: rest =>
    if connMatch l then segmentLines rest
    else
      let name := stripSp l
      let buf := rest.takeWhile (fun x => !connMatch x)
      let tc := splitTitleCompany (stripSp (joinSp buf))
      match h : rest.dropWhile (fun x => !connMatch x) with
      | [] => if keepName name then [⟨name, tc.1, tc.2, []⟩] else []
      | d :: rest2 =>
        let date := stripSp (csSubConnectedOn d)
        (if keepName name then [⟨name, tc.1, tc.2, date⟩] else []) ++ segmentLines rest2
termination_by ls => ls.length
decreasing_by
  · simp
  · have h1 : (rest.dropWhile (fun x => !connMatch x)).length ≤ rest.length :=
      (rest.dropWhile_suffix (fun x => !connMatch x)).sublist.length_le
    rw [h] at h1
    simp at h1 ⊢
    omega

/-- `extract_from_pdf`, modelled after the pdfplumber collaborator: the
input is the list of pages, each page the list of raw lines produced by
`page.extract_text().split("\n")` (an empty-text page contributes `[[]]`-like
lines that sanitization removes).  Each page is sanitized and segmented and
the per-page records are concatenated in order. -/
def extractFromPdf (pages : List (List Line)) : List ConnectionRecord :=
  (pages.map (fun p => segmentLines (dropHeaderFooterAndMessage p))).flatten

/-- The same scan loop with an explicit budget of outer-loop iterations
(`fuel`); `none` means the budget was exhausted before the scan index
reached the end.  This is the vehicle for the termination claim: `fuel =
lines.length` always suffices because every branch of the loop body
advances the index by at least one. -/
def loopFuel : Nat → List Line → Option (List ConnectionRecord)
  | 0, ls => if ls.isEmpty then some [] else none
  | _ + 1, [] => some []
  | fuel + 1, l :: rest =>
    if connMatch l then loopFuel fuel rest
    else
      let name := stripSp l
      let buf := rest.takeWhile (fun x => !connMatch x)
      let tc := splitTitleCompany (stripSp (joinSp buf))
      match rest.dropWhile (fun x => !connMatch x) with
      | [] => some (if keepName name then [⟨name, tc.1, tc.2, []⟩] else [])
      | d :: rest2 =>
        let date := stripSp (csSubConnectedOn d)
        (loopFuel fuel rest2).map
          (fun rs => (if keepName name then [⟨name, tc.1, tc.2, date⟩] else []) ++ rs)

/-! ### Generic lemmas about the stripping and prefix-matching helpers -/

theorem dropWhile_head_false {p : Char → Bool} : ∀ {s : Line} {c : Char} {t : Line},
    s.dropWhile p = c :: t → p c = false := by
  intro s
  induction s with
  | nil => intro c t h; simp at h
  | cons a s ih =>
    intro c t h
    rw [List.dropWhile_cons] at h
    split at h
    · exact ih h
    · next hp => cases h; simpa using hp

theorem dtp_cons_eq (p : Char → Bool) (c : Char) (t : Line) :
    dropTrailingP p (c :: t) =
      if (dropTrailingP p t).isEmpty && p c then [] else c :: dropTrailingP p t := rfl

theorem dtp_isPre (p : Char → Bool) : ∀ s : Line, dropTrailingP p s <+: s := by
  intro s
  induction s with
  | nil => exact List.prefix_refl _
  | cons c t ih =>
    rw [dtp_cons_eq]
    split
    · exact List.nil_prefix
    · exact List.cons_prefix_cons.mpr ⟨rfl, ih⟩

theorem dtp_shape (p : Char → Bool) (c : Char) (t : Line) :
    dropTrailingP p (c :: t) = [] ∨ dropTrailingP p (c :: t) = c :: dropTrailingP p t := by
  rw [dtp_cons_eq]
  split
  · exact Or.inl rfl
  · exact Or.inr rfl

theorem dtp_idem (p : Char → Bool) : ∀ s : Line,
    dropTrailingP p (dropTrailingP p s) = dropTrailingP p s := by
  intro s
  induction s with
  | nil => rfl
  | cons c t ih =>
    rw [dtp_cons_eq]
    by_cases hc : ((dropTrailingP p t).isEmpty && p c) = true
    · rw [if_pos hc]
      rfl
    · rw [if_neg hc, dtp_cons_eq, ih, if_neg hc]

theorem dtp_append (p : Char → Bool) : ∀ (a v : Line), (∀ c ∈ a, p c = false) →
    dropTrailingP p (a ++ v) = a ++ dropTrailingP p v := by
  intro a
  induction a with
  | nil => intro v _; rfl
  | cons c a ih =>
    intro v h
    rw [List.cons_append, dtp_cons_eq]
    rw [ih v (fun x hx => h x (List.mem_cons_of_mem _ hx))]
    have hc : p c = false := h c (List.mem_cons_self _ _)
    simp [hc]

theorem stripP_idem (p : Char → Bool) (s : Line) : stripP p (stripP p s) = stripP p s := by
  unfold stripP
  have h1 : List.dropWhile p (dropTrailingP p (s.dropWhile p))
      = dropTrailingP p (s.dropWhile p) := by
    cases hu : s.dropWhile p with
    | nil => rfl
    | cons c t =>
      have hc : p c = false := dropWhile_head_false hu
      rcases dtp_shape p c t with h | h
      · rw [h]; rfl
      · rw [h, List.dropWhile_cons, hc]
        simp
  rw [h1, dtp_idem]

theorem stripP_isInf (p : Char → Bool) (s : Line) : stripP p s <:+: s :=
  (dtp_isPre p (s.dropWhile p)).isInfix.trans (s.dropWhile_suffix p).isInfix

theorem takeWhile_eq_self_of_all {α} (p : α → Bool) : ∀ l : List α,
    (∀ x ∈ l, p x = true) → l.takeWhile p = l := by
  intro l
  induction l with
  | nil => intro _; rfl
  | cons a t ih =>
    intro h
    have ha : p a = true := h a (List.mem_cons_self _ _)
    have ht := ih (fun x hx => h x (List.mem_cons_of_mem _ hx))
    simp [List.takeWhile_cons, ha, ht]

theorem dropWhile_eq_nil_of_all {α} (p : α → Bool) : ∀ l : List α,
    (∀ x ∈ l, p x = true) → l.dropWhile p = [] := by
  intro l
  induction l with
  | nil => intro _; rfl
  | cons a t ih =>
    intro h
    have ha : p a = true := h a (List.mem_cons_self _ _)
    have ht := ih (fun x hx => h x (List.mem_cons_of_mem _ hx))
    simp [List.dropWhile_cons, ha, ht]

theorem litPre_some : ∀ {pat s r : Line}, litPre pat s = some r → s = pat ++ r := by
  intro pat
  induction pat with
  | nil =>
    intro s r h
    rw [litPre] at h
    cases h
    rfl
  | cons p ps ih =>
    intro s r h
    cases s with
    | nil => exact absurd h (by rw [litPre]; exact Option.noConfusion)
    | cons c cs =>
      rw [litPre] at h
      split at h
      · next hc => rw [List.cons_append, hc, ih h]
      · exact absurd h Option.noConfusion

theorem litPre_self_append : ∀ (pat r : Line), litPre pat (pat ++ r) = some r := by
  intro pat
  induction pat with
  | nil => intro r; rfl
  | cons p ps ih => intro r; rw [List.cons_append, litPre, if_pos rfl]; exact ih r

theorem litPre_none : ∀ {pat s : Line}, litPre pat s = none → ∀ r, s ≠ pat ++ r := by
  intro pat s h r he
  rw [he, litPre_self_append] at h
  exact Option.noConfusion h

/-! ### `splitFirst`: soundness, minimality, completeness -/

theorem splitFirst_sound {sep : Line} : ∀ {s l r : Line},
    splitFirst sep s = some (l, r) → s = l ++ sep ++ r := by
  intro s
  induction s with
  | nil =>
    intro l r h
    rw [splitFirst] at h
    cases hl : litPre sep [] with
    | none => rw [hl] at h; exact absurd h Option.noConfusion
    | some v =>
      rw [hl] at h
      cases h
      simpa using litPre_some hl
  | cons c t ih =>
    intro l r h
    rw [splitFirst] at h
    cases hl : litPre sep (c :: t) with
    | some v =>
      rw [hl] at h
      cases h
      simpa using litPre_some hl
    | none =>
      rw [hl] at h
      cases hs : splitFirst sep t with
      | none => rw [hs] at h; exact absurd h Option.noConfusion
      | some p =>
        rw [hs] at h
        cases h
        have := ih (l := p.1) (r := p.2) (by rw [hs])
        simp [this]

theorem splitFirst_min {sep : Line} : ∀ {s l r : Line},
    splitFirst sep s = some (l, r) → ∀ l' r', s = l' ++ sep ++ r' → l.length ≤ l'.length := by
  intro s
  induction s with
  | nil =>
    intro l r h l' r' he
    rw [splitFirst] at h
    cases hl : litPre sep [] with
    | none => rw [hl] at h; exact absurd h Option.noConfusion
    | some v => rw [hl] at h; cases h; exact Nat.zero_le _
  | cons c t ih =>
    intro l r h l' r' he
    rw [splitFirst] at h
    cases hl : litPre sep (c :: t) with
    | some v => rw [hl] at h; cases h; exact Nat.zero_le _
    | none =>
      rw [hl] at h
      cases hs : splitFirst sep t with
      | none => rw [hs] at h; exact absurd h Option.noConfusion
      | some p =>
        rw [hs] at h
        cases h
        cases l' with
        | nil =>
          exfalso
          exact litPre_none hl r' (by simpa using he)
        | cons c' t' =>
          have hc : c' = c := by
            have := he
            simp only [List.cons_append] at this
            exact (List.cons.injEq _ _ _ _ ▸ this).1.symm
          have ht : t = t' ++ sep ++ r' := by
            have := he
            simp only [List.cons_append] at this
            exact (List.cons.injEq _ _ _ _ ▸ this).2
          have := ih (by rw [hs]) t' r' ht
          simpa using this

theorem splitFirst_none_of {sep : Line} : ∀ {s : Line},
    (∀ l r : Line, s ≠ l ++ sep ++ r) → splitFirst sep s = none := by
  intro s h
  cases hs : splitFirst sep s with
  | none => rfl
  | some p =>
    exfalso
    exact h p.1 p.2 (splitFirst_sound (l := p.1) (r := p.2) (by rw [hs]))

theorem splitFirst_isSome_of {sep : Line} : ∀ {s l r : Line},
    s = l ++ sep ++ r → (splitFirst sep s).isSome := by
  intro s
  induction s with
  | nil =>
    intro l r he
    rw [splitFirst]
    have : sep ++ r = [] := by
      cases l with
      | nil => simpa using he.symm
      | cons a b => exact absurd he.symm (by simp)
    cases hsep : sep with
    | nil => rfl
    | cons a b => rw [hsep] at this; exact absurd this (by simp)
  | cons c t ih =>
    intro l r he
    rw [splitFirst]
    cases hl : litPre sep (c :: t) with
    | some v => rfl
    | none =>
      cases l with
      | nil =>
        exfalso
        exact litPre_none hl r (by simpa using he)
      | cons c' t' =>
        have ht : t = t' ++ sep ++ r := by
          simp only [List.cons_append] at he
          exact (List.cons.injEq _ _ _ _ ▸ he).2
        have := ih ht
        cases hs : splitFirst sep t with
        | none => rw [hs] at this; exact absurd this (by simp)
        | some p => simp

/-! ### `subMessage`: scanning equations and stability on its own output -/

theorem subMsgAux_nil (pnw : Bool) : subMsgAux pnw [] = [] := rfl

theorem subMsgAux_nohit {pnw : Bool} {c : Char} {t : Line}
    (h : msgHit pnw (c :: t) = false) :
    subMsgAux pnw (c :: t) = c :: subMsgAux (!isWordChar c) t := by
  cases t with
  | nil => simp [subMsgAux, h]
  | cons a1 t1 =>
  cases t1 with
  | nil => simp [subMsgAux, h]
  | cons a2 t2 =>
  cases t2 with
  | nil => simp [subMsgAux, h]
  | cons a3 t3 =>
  cases t3 with
  | nil => simp [subMsgAux, h]
  | cons a4 t4 =>
  cases t4 with
  | nil => simp [subMsgAux, h]
  | cons a5 t5 =>
  cases t5 with
  | nil => simp [subMsgAux, h]
  | cons a6 t6 => simp [subMsgAux, h]

theorem msgHit_false_pnw (s : Line) : msgHit false s = false := by
  simp [msgHit]

theorem msgData_eq : ("Message").data = ['M', 'e', 's', 's', 'a', 'g', 'e'] := rfl

theorem essageData_eq : ("essage").data = ['e', 's', 's', 'a', 'g', 'e'] := rfl

theorem msgHit_parts {pnw : Bool} {s : Line} (h : msgHit pnw s = true) :
    pnw = true ∧ (litPre ("Message").data s).isSome = true ∧ nextOkB (s.drop 7) = true := by
  simpa [msgHit, Bool.and_eq_true, and_assoc] using h

theorem subMsgAux_hit {pnw : Bool} {c : Char} {t : Line}
    (h : msgHit pnw (c :: t) = true) :
    subMsgAux pnw (c :: t) = subMsgAux false ((c :: t).drop 7) := by
  obtain ⟨-, hlit, -⟩ := msgHit_parts h
  obtain ⟨r, hr⟩ := Option.isSome_iff_exists.mp hlit
  have he := litPre_some hr
  rw [msgData_eq] at he
  have he' : c = 'M' ∧ t = 'e' :: 's' :: 's' :: 'a' :: 'g' :: 'e' :: r := by
    simpa using he
  obtain ⟨hc, ht⟩ := he'
  subst hc
  subst ht
  simp [subMsgAux, h]

theorem isSpace_not_word {c : Char} (h : isSpace c = true) : isWordChar c = false := by
  simp only [isSpace, Bool.or_eq_true, beq_iff_eq] at h
  rcases h with ((((h | h) | h) | h) | h) | h <;> subst h <;> decide

theorem word_not_isSpace {c : Char} (h : isWordChar c = true) : isSpace c = false := by
  by_contra hs
  rw [isSpace_not_word (by simpa using hs)] at h
  exact Bool.noConfusion h

theorem subMsgAux_length : ∀ (n : Nat) (s : Line), s.length ≤ n → ∀ pnw,
    (subMsgAux pnw s).length ≤ s.length := by
  intro n
  induction n with
  | zero =>
    intro s hs pnw
    cases s with
    | nil => simp [subMsgAux_nil]
    | cons c t => simp at hs
  | succ n ih =>
    intro s hs pnw
    cases s with
    | nil => simp [subMsgAux_nil]
    | cons c t =>
      by_cases h : msgHit pnw (c :: t) = true
      · rw [subMsgAux_hit h]
        have h1 : ((c :: t).drop 7).length ≤ n := by
          simp only [List.length_drop]
          simp at hs ⊢
          omega
        have h2 := ih _ h1 false
        have h3 : ((c :: t).drop 7).length ≤ (c :: t).length := by
          simp [List.length_drop]
          omega
        omega
      · rw [subMsgAux_nohit (by simpa using h)]
        have := ih t (by simp at hs; omega) (!isWordChar c)
        simp
        omega

/-- Copy lemma: if a purely word-character pattern is a prefix of a scan
output produced with `pnw = false`, the scanner copied that pattern verbatim
from its input (no hit can start inside it, as every position has a word
character on its left). -/
theorem copyPre : ∀ (pre : Line), (∀ a ∈ pre, isWordChar a = true) → ∀ (t v : Line),
    litPre pre (subMsgAux false t) = some v →
    t = pre ++ t.drop pre.length ∧
      subMsgAux false t = pre ++ subMsgAux false (t.drop pre.length) := by
  intro pre
  induction pre with
  | nil =>
    intro _ t v _
    exact ⟨by simp, by simp⟩
  | cons a pre ih =>
    intro hw t v h
    cases t with
    | nil =>
      rw [subMsgAux_nil, litPre] at h
      exact absurd h Option.noConfusion
    | cons d t' =>
      rw [subMsgAux_nohit (msgHit_false_pnw _), litPre] at h
      split at h
      · next hda =>
        subst hda
        have hdw : isWordChar d = true := hw d (List.mem_cons_self _ _)
        rw [hdw] at h
        simp only [Bool.not_true] at h
        obtain ⟨h1, h2⟩ := ih (fun x hx => hw x (List.mem_cons_of_mem _ hx)) t' v h
        refine ⟨?_, ?_⟩
        · conv_lhs => rw [h1]
          simp
        · rw [subMsgAux_nohit (msgHit_false_pnw _), hdw]
          simp only [Bool.not_true]
          rw [h2]
          simp
      · exact absurd h Option.noConfusion

theorem msgHit_false_of_not_M {pnw : Bool} {c : Char} {t : Line} (h : ¬c = 'M') :
    msgHit pnw (c :: t) = false := by
  have hl : litPre ("Message").data (c :: t) = none := by
    rw [msgData_eq, litPre]
    simp [h]
  simp [msgHit, hl]

/-- Scanning the output of a scan changes nothing, provided the second
scan's initial boundary flag `q` is no more permissive than the first's:
`re.sub(r"\bMessage\b", "", ·)` leaves no new `\bMessage\b` occurrence in
its own output. -/
theorem subMsg_stable : ∀ (n : Nat) (s : Line), s.length ≤ n → ∀ (p q : Bool),
    (q = true → p = true) → subMsgAux q (subMsgAux p s) = subMsgAux p s := by
  intro n
  induction n with
  | zero =>
    intro s hs p q _
    cases s with
    | nil => rfl
    | cons c t => simp at hs
  | succ n ih =>
    intro s hs p q hpq
    cases s with
    | nil => rfl
    | cons c t =>
      by_cases hp : msgHit p (c :: t) = true
      · rw [subMsgAux_hit hp]
        obtain ⟨hptrue, hlit, hnext⟩ := msgHit_parts hp
        cases hu : (c :: t).drop 7 with
        | nil => rfl
        | cons c' t' =>
          rw [hu] at hnext
          have hc'w : isWordChar c' = false := by
            simpa [nextOkB] using hnext
          have hne : ¬c' = 'M' := by
            intro he
            rw [he] at hc'w
            exact absurd hc'w (by decide)
          rw [subMsgAux_nohit (msgHit_false_pnw _)]
          rw [subMsgAux_nohit (msgHit_false_of_not_M hne)]
          congr 1
          have ht' : t'.length ≤ n := by
            have hl7 : ((c :: t).drop 7).length = (c :: t).length - 7 :=
              List.length_drop _ _
            rw [hu] at hl7
            simp at hl7 hs
            omega
          exact ih _ ht' (!isWordChar c') (!isWordChar c') (fun a => a)
      · have hp' : msgHit p (c :: t) = false := by simpa using hp
        rw [subMsgAux_nohit hp']
        by_cases hq : msgHit q (c :: subMsgAux (!isWordChar c) t) = true
        · exfalso
          obtain ⟨hqtrue, hlit, hnext2⟩ := msgHit_parts hq
          have hptrue : p = true := hpq hqtrue
          obtain ⟨r, hr⟩ := Option.isSome_iff_exists.mp hlit
          have he := litPre_some hr
          rw [msgData_eq] at he
          have he' : c = 'M' ∧ subMsgAux (!isWordChar c) t = 'e' :: 's' :: 's' :: 'a' :: 'g' :: 'e' :: r := by
            simpa using he
          obtain ⟨hcM, hout⟩ := he'
          subst hcM
          rw [show (!isWordChar 'M') = false from by decide] at hout hnext2
          have hlit2 : litPre ("essage").data (subMsgAux false t) = some r := by
            rw [hout, essageData_eq]
            exact litPre_self_append _ _
          obtain ⟨ht1, ht6⟩ := copyPre ("essage").data (by decide) t r hlit2
          rw [show (("essage").data).length = 6 from rfl] at ht1 ht6
          have hlit3 : (litPre ("Message").data ('M' :: t)).isSome = true := by
            have h9 : ('M' : Char) :: t = ("Message").data ++ t.drop 6 := by
              conv_lhs => rw [ht1]
              rw [msgData_eq, essageData_eq]
              rfl
            rw [h9, litPre_self_append]
            rfl
          have hx2 : nextOkB (t.drop 6) = false := by
            have hmeq : msgHit p ('M' :: t) = nextOkB (t.drop 6) := by
              simp [msgHit, hptrue, hlit3]
            rw [← hmeq, hp']
          cases hz : t.drop 6 with
          | nil =>
            rw [hz] at hx2
            exact absurd hx2 (by simp [nextOkB])
          | cons w z =>
            rw [hz] at hx2
            have hww : isWordChar w = true := by simpa [nextOkB] using hx2
            rw [essageData_eq] at ht6
            have hdrop2 : (('M' : Char) :: subMsgAux false t).drop 7
                = subMsgAux false (t.drop 6) := by
              rw [ht6]
              simp
            rw [hdrop2, hz] at hnext2
            rw [subMsgAux_nohit (msgHit_false_pnw _)] at hnext2
            simp [nextOkB, hww] at hnext2
        · rw [subMsgAux_nohit (by simpa using hq)]
          congr 1
          exact ih t (by simp at hs; omega) (!isWordChar c) (!isWordChar c) (fun a => a)

theorem fix_no_hit {pnw : Bool} {c : Char} {t : Line}
    (h : subMsgAux pnw (c :: t) = c :: t) :
    msgHit pnw (c :: t) = false ∧ subMsgAux (!isWordChar c) t = t := by
  by_cases hm : msgHit pnw (c :: t) = true
  · exfalso
    rw [subMsgAux_hit hm] at h
    have hlen := subMsgAux_length ((c :: t).drop 7).length ((c :: t).drop 7) (le_refl _) false
    have hcg := congrArg List.length h
    simp [List.length_drop] at hcg hlen
    omega
  · have hm' : msgHit pnw (c :: t) = false := by simpa using hm
    rw [subMsgAux_nohit hm'] at h
    injection h with _ h2
    exact ⟨hm', h2⟩

theorem subMsg_fix_dropWhile : ∀ {u : Line}, subMsgAux true u = u →
    subMsgAux true (u.dropWhile isSpace) = u.dropWhile isSpace := by
  intro u
  induction u with
  | nil => intro _; rfl
  | cons c t ih =>
    intro h
    obtain ⟨hm, h2⟩ := fix_no_hit h
    rw [List.dropWhile_cons]
    by_cases hc : isSpace c = true
    · simp only [hc, if_true]
      have h2' : subMsgAux true t = t := by
        rw [isSpace_not_word hc] at h2
        simpa using h2
      exact ih h2'
    · have hc' : isSpace c = false := by simpa using hc
      rw [hc']
      simpa using h

theorem subMsg_fix_dtp : ∀ (u : Line) (pnw : Bool), subMsgAux pnw u = u →
    subMsgAux pnw (dropTrailingP isSpace u) = dropTrailingP isSpace u := by
  intro u
  induction u with
  | nil => intro pnw _; rfl
  | cons c t ih =>
    intro pnw h
    obtain ⟨hm, h2⟩ := fix_no_hit h
    rw [dtp_cons_eq]
    by_cases hcnd : ((dropTrailingP isSpace t).isEmpty && isSpace c) = true
    · rw [if_pos hcnd]
      rfl
    · rw [if_neg hcnd]
      have hr := ih (!isWordChar c) h2
      have hmr : msgHit pnw (c :: dropTrailingP isSpace t) = false := by
        by_cases hx : msgHit pnw (c :: dropTrailingP isSpace t) = true
        · exfalso
          obtain ⟨hpt, hlit, hnx⟩ := msgHit_parts hx
          obtain ⟨r, hrr⟩ := Option.isSome_iff_exists.mp hlit
          have heq := litPre_some hrr
          obtain ⟨r2, hr2⟩ : ∃ r2, c :: t = ("Message").data ++ r2 := by
            have h5 : ("Message").data <+: (c :: dropTrailingP isSpace t) := ⟨r, heq.symm⟩
            obtain ⟨r2, hr2⟩ := h5.trans (List.cons_prefix_cons.mpr ⟨rfl, dtp_isPre _ _⟩)
            exact ⟨r2, hr2.symm⟩
          have hlit4 : litPre ("Message").data (c :: t) = some r2 := by
            rw [hr2]
            exact litPre_self_append _ _
          have hx2 : nextOkB ((c :: t).drop 7) = false := by
            have hmeq : msgHit pnw (c :: t) = nextOkB ((c :: t).drop 7) := by
              simp [msgHit, hpt, hlit4]
            rw [← hmeq, hm]
          have hr2d : (c :: t).drop 7 = r2 := by
            rw [hr2, msgData_eq]
            simp
          rw [hr2d] at hx2
          cases hz : r2 with
          | nil =>
            rw [hz] at hx2
            exact absurd hx2 (by simp [nextOkB])
          | cons w z =>
            rw [hz] at hx2
            have hww : isWordChar w = true := by simpa [nextOkB] using hx2
            have hsp : ∀ x ∈ ("Message").data ++ [w], isSpace x = false := by
              intro x hxm
              rcases List.mem_append.mp hxm with hxm | hxm
              · rw [msgData_eq] at hxm
                fin_cases hxm <;> decide
              · rw [List.mem_singleton.mp hxm]
                exact word_not_isSpace hww
            have hdtp : dropTrailingP isSpace (c :: t)
                = (("Message").data ++ [w]) ++ dropTrailingP isSpace z := by
              conv_lhs => rw [hr2, hz,
                show ("Message").data ++ w :: z = (("Message").data ++ [w]) ++ z by simp]
              exact dtp_append _ _ _ hsp
            have hdtp2 : dropTrailingP isSpace (c :: t) = c :: dropTrailingP isSpace t := by
              rw [dtp_cons_eq, if_neg hcnd]
            rw [hdtp2] at hdtp
            rw [hdtp, msgData_eq] at hnx
            simp [nextOkB, hww] at hnx
        · simpa using hx
      rw [subMsgAux_nohit hmr, hr]

theorem subMsg_fix_strip {u : Line} (h : subMsgAux true u = u) :
    subMsgAux true (stripSp u) = stripSp u := by
  unfold stripSp stripP
  exact subMsg_fix_dtp _ true (subMsg_fix_dropWhile h)

/-- A line kept by the sanitizer is already stripped, non-empty, and a
fixpoint of the `Message`-token removal: running `sanitizeLine` on it again
can only be stopped by the header/footer checks. -/
theorem sanitizeLine_some {x s : Line} (h : sanitizeLine x = some s) :
    stripSp s = s ∧ s.isEmpty = false ∧ subMessage s = s := by
  simp only [sanitizeLine] at h
  by_cases h1 : (stripSp x).isEmpty = true
  · rw [if_pos h1] at h
    exact absurd h Option.noConfusion
  rw [if_neg h1] at h
  by_cases h2 : headerAny (stripSp x) = true
  · rw [if_pos h2] at h
    exact absurd h Option.noConfusion
  rw [if_neg h2] at h
  by_cases h3 : footerPat (stripSp x) = true
  · rw [if_pos h3] at h
    exact absurd h Option.noConfusion
  rw [if_neg h3] at h
  by_cases h4 : (stripSp (subMessage (stripSp x))).isEmpty = true
  · rw [if_pos h4] at h
    exact absurd h Option.noConfusion
  rw [if_neg h4] at h
  cases h
  refine ⟨stripP_idem _ _, by simpa using h4, ?_⟩
  unfold subMessage
  exact subMsg_fix_strip (subMsg_stable (stripSp x).length _ (le_refl _) true true (fun a => a))

/-! ### Sanitizer output facts -/

theorem sanitize_out_eq {xs : List Line} {s : Line}
    (h : s ∈ dropHeaderFooterAndMessage xs) :
    stripSp s = s ∧ s.isEmpty = false ∧ subMessage s = s := by
  obtain ⟨x, -, hx⟩ := List.mem_filterMap.mp h
  exact sanitizeLine_some hx

theorem sanitizeLine_of_clean {s : Line} (h1 : stripSp s = s) (h2 : s.isEmpty = false)
    (h3 : subMessage s = s) :
    sanitizeLine s = if headerAny s || footerPat s then none else some s := by
  simp only [sanitizeLine, h1, h2, h3]
  by_cases ha : headerAny s = true
  · simp [ha]
  · by_cases hf : footerPat s = true
    · simp [ha, hf]
    · simp [ha, hf, h2]

theorem filterMap_sanitize_of_clean : ∀ ys : List Line,
    (∀ s ∈ ys, sanitizeLine s = if headerAny s || footerPat s then none else some s) →
    ys.filterMap sanitizeLine = ys.filter (fun s => !headerAny s && !footerPat s) := by
  intro ys
  induction ys with
  | nil => intro _; rfl
  | cons a t ih =>
    intro h
    have ha := h a (List.mem_cons_self _ _)
    have ht := ih (fun x hx => h x (List.mem_cons_of_mem _ hx))
    rw [List.filter_cons]
    by_cases hh : (headerAny a || footerPat a) = true
    · have hnone : sanitizeLine a = none := by rw [ha, if_pos hh]
      rw [List.filterMap_cons_none hnone]
      have hp : (!headerAny a && !footerPat a) = false := by
        have hh2 : headerAny a = true ∨ footerPat a = true := by simpa using hh
        rcases hh2 with hh' | hh' <;> simp [hh']
      rw [hp]
      simpa using ht
    · have hsome : sanitizeLine a = some a := by rw [ha, if_neg hh]
      rw [List.filterMap_cons_some hsome]
      have hp : (!headerAny a && !footerPat a) = true := by
        simp only [Bool.or_eq_true, not_or, Bool.not_eq_true] at hh
        simp [hh.1, hh.2]
      rw [hp]
      simp only [if_true]
      rw [ht]

/-! ### Scan-loop equations -/

theorem seg_nil : segmentLines [] = [] := by rw [segmentLines]

theorem seg_skip {l : Line} {rest : List Line} (h : connMatch l = true) :
    segmentLines (l :: rest) = segmentLines rest := by
  rw [segmentLines]
  simp [h]

theorem seg_end {l : Line} {rest : List Line} (hc : connMatch l = false)
    (hd : rest.dropWhile (fun x => !connMatch x) = []) :
    segmentLines (l :: rest) =
      if keepName (stripSp l) then
        [⟨stripSp l,
          (splitTitleCompany (stripSp (joinSp (rest.takeWhile (fun x => !connMatch x))))).1,
          (splitTitleCompany (stripSp (joinSp (rest.takeWhile (fun x => !connMatch x))))).2,
          []⟩]
      else [] := by
  rw [segmentLines]
  simp only [hc, Bool.false_eq_true, if_false]
  split
  · rfl
  · next d rest2 heq =>
    rw [hd] at heq
    exact absurd heq (by simp)

theorem seg_date {l d : Line} {rest rest2 : List Line} (hc : connMatch l = false)
    (hd : rest.dropWhile (fun x => !connMatch x) = d :: rest2) :
    segmentLines (l :: rest) =
      (if keepName (stripSp l) then
        [⟨stripSp l,
          (splitTitleCompany (stripSp (joinSp (rest.takeWhile (fun x => !connMatch x))))).1,
          (splitTitleCompany (stripSp (joinSp (rest.takeWhile (fun x => !connMatch x))))).2,
          stripSp (csSubConnectedOn d)⟩]
       else []) ++ segmentLines rest2 := by
  rw [segmentLines]
  simp only [hc, Bool.false_eq_true, if_false]
  split
  · next heq =>
    rw [hd] at heq
    exact absurd heq (by simp)
  · next d' rest2' heq =>
    rw [hd] at heq
    injection heq with h1 h2
    subst h1
    subst h2
    rfl

/-- The while loop reaches the end of the lines within `lines.length` outer
iterations — the scan index strictly increases at every iteration — and the
fuelled loop then computes exactly the records of the recursive rendering. -/
theorem loopFuel_complete : ∀ (fuel : Nat) (ls : List Line), ls.length ≤ fuel →
    loopFuel fuel ls = some (segmentLines ls) := by
  intro fuel
  induction fuel with
  | zero =>
    intro ls hl
    have h0 : ls = [] := List.eq_nil_of_length_eq_zero (Nat.le_zero.mp hl)
    subst h0
    rw [seg_nil]
    rfl
  | succ n ih =>
    intro ls hl
    cases ls with
    | nil =>
      rw [seg_nil]
      rfl
    | cons l rest =>
      rw [loopFuel]
      by_cases hc : connMatch l = true
      · rw [seg_skip hc]
        simp only [hc, if_true]
        exact ih rest (by simp at hl; omega)
      · have hc' : connMatch l = false := by simpa using hc
        simp only [hc', Bool.false_eq_true, if_false]
        cases hd : rest.dropWhile (fun x => !connMatch x) with
        | nil =>
          rw [seg_end hc' hd]
        | cons d rest2 =>
          have hr2 : rest2.length ≤ n := by
            have hle := (rest.dropWhile_suffix (fun x => !connMatch x)).sublist.length_le
            rw [hd] at hle
            simp at hle hl
            omega
          rw [seg_date hc' hd]
          simp [hd, ih rest2 hr2]

/-! ### Evaluation bridges and further helpers -/

theorem segmentLines_eval {ls : List Line} {r : List ConnectionRecord}
    (h : loopFuel ls.length ls = some r) : segmentLines ls = r := by
  have h2 := loopFuel_complete ls.length ls (le_refl _)
  rw [h] at h2
  injection h2 with h3
  exact h3.symm

theorem extract_single_page (p : List Line) :
    extractFromPdf [p] = segmentLines (dropHeaderFooterAndMessage p) := by
  unfold extractFromPdf
  simp

theorem extract_mem {pages : List (List Line)} {r : ConnectionRecord}
    (h : r ∈ extractFromPdf pages) :
    ∃ p ∈ pages, r ∈ segmentLines (dropHeaderFooterAndMessage p) := by
  unfold extractFromPdf at h
  rw [List.mem_flatten] at h
  obtain ⟨recs, hrecs, hr⟩ := h
  rw [List.mem_map] at hrecs
  obtain ⟨p, hp, hpe⟩ := hrecs
  exact ⟨p, hp, hpe ▸ hr⟩

theorem keepName_spec {nm : Line} (h : keepName nm = true) :
    nm ≠ [] ∧ headerPat0 nm = false ∧ footerPat nm = false := by
  simp only [keepName, Bool.and_eq_true, Bool.not_eq_true'] at h
  refine ⟨?_, h.1.2, h.2⟩
  intro he
  rw [he] at h
  exact absurd h.1.1 (by simp)

/-- The name guard established by the sanity filter, for every record the
scan loop emits. -/
theorem seg_keep_inv : ∀ (n : Nat) (ls : List Line), ls.length ≤ n →
    ∀ r ∈ segmentLines ls, keepName r.name = true := by
  intro n
  induction n with
  | zero =>
    intro ls hl r hr
    have h0 : ls = [] := List.eq_nil_of_length_eq_zero (Nat.le_zero.mp hl)
    subst h0
    rw [seg_nil] at hr
    exact absurd hr (List.not_mem_nil _)
  | succ n ih =>
    intro ls hl r hr
    cases ls with
    | nil =>
      rw [seg_nil] at hr
      exact absurd hr (List.not_mem_nil _)
    | cons l rest =>
      by_cases hc : connMatch l = true
      · rw [seg_skip hc] at hr
        exact ih rest (by simp at hl; omega) r hr
      · have hc' : connMatch l = false := by simpa using hc
        cases hd : rest.dropWhile (fun x => !connMatch x) with
        | nil =>
          rw [seg_end hc' hd] at hr
          split at hr
          · next hk =>
            rw [List.mem_singleton.mp hr]
            exact hk
          · exact absurd hr (List.not_mem_nil _)
        | cons d rest2 =>
          rw [seg_date hc' hd] at hr
          rcases List.mem_append.mp hr with hr | hr
          · split at hr
            · next hk =>
              rw [List.mem_singleton.mp hr]
              exact hk
            · exact absurd hr (List.not_mem_nil _)
          · have hlen : rest2.length ≤ n := by
              have hle := (rest.dropWhile_suffix (fun x => !connMatch x)).sublist.length_le
              rw [hd] at hle
              simp at hle hl
              omega
            exact ih rest2 hlen r hr

/-- Every record the scan loop emits has, as its name, the strip of an input
line that the `Connected on` pattern did not match. -/
theorem seg_name_src : ∀ (n : Nat) (ls : List Line), ls.length ≤ n →
    ∀ r ∈ segmentLines ls, ∃ l ∈ ls, connMatch l = false ∧ r.name = stripSp l := by
  intro n
  induction n with
  | zero =>
    intro ls hl r hr
    have h0 : ls = [] := List.eq_nil_of_length_eq_zero (Nat.le_zero.mp hl)
    subst h0
    rw [seg_nil] at hr
    exact absurd hr (List.not_mem_nil _)
  | succ n ih =>
    intro ls hl r hr
    cases ls with
    | nil =>
      rw [seg_nil] at hr
      exact absurd hr (List.not_mem_nil _)
    | cons l rest =>
      by_cases hc : connMatch l = true
      · rw [seg_skip hc] at hr
        obtain ⟨x, hx, hcx, hnx⟩ := ih rest (by simp at hl; omega) r hr
        exact ⟨x, List.mem_cons_of_mem _ hx, hcx, hnx⟩
      · have hc' : connMatch l = false := by simpa using hc
        cases hd : rest.dropWhile (fun x => !connMatch x) with
        | nil =>
          rw [seg_end hc' hd] at hr
          split at hr
          · rw [List.mem_singleton.mp hr]
            exact ⟨l, List.mem_cons_self _ _, hc', rfl⟩
          · exact absurd hr (List.not_mem_nil _)
        | cons d rest2 =>
          rw [seg_date hc' hd] at hr
          rcases List.mem_append.mp hr with hr | hr
          · split at hr
            · rw [List.mem_singleton.mp hr]
              exact ⟨l, List.mem_cons_self _ _, hc', rfl⟩
            · exact absurd hr (List.not_mem_nil _)
          · have hlen : rest2.length ≤ n := by
              have hle := (rest.dropWhile_suffix (fun x => !connMatch x)).sublist.length_le
              rw [hd] at hle
              simp at hle hl
              omega
            obtain ⟨x, hx, hcx, hnx⟩ := ih rest2 hlen r hr
            have hx2 : x ∈ rest := by
              have : x ∈ rest.dropWhile (fun y => !connMatch y) := by
                rw [hd]
                exact List.mem_cons_of_mem _ hx
              exact (rest.dropWhile_suffix (fun y => !connMatch y)).sublist.subset this
            exact ⟨x, List.mem_cons_of_mem _ hx2, hcx, hnx⟩

theorem trimField_isInf (x : Line) : trimField x <:+: x :=
  ((stripP_isInf _ _).trans (stripP_isInf _ _)).trans (stripP_isInf _ _)

theorem csSub_isInf (d : Line) : csSubConnectedOn d <:+: d := by
  unfold csSubConnectedOn
  cases h : litPre (("Connected on").data) d with
  | none => exact List.infix_refl _
  | some r =>
    cases r with
    | nil => exact List.infix_refl _
    | cons c rr =>
      by_cases hsp : isSpace c = true
      · simp only [hsp, if_true]
        have hd := litPre_some h
        have h1 : rr.dropWhile isSpace <:+ rr := List.dropWhile_suffix _
        have h2 : rr <:+ d := ⟨("Connected on").data ++ [c], by simp [hd]⟩
        exact (h1.trans h2).isInfix
      · simp [hsp]

/-- The two halves produced by the splitter are substrings of the
whitespace-normalized, trimmed input it operates on. -/
theorem split_isInf (s : Line) :
    (splitTitleCompany s).1 <:+: stripSp (normWs s) ∧
      (splitTitleCompany s).2 <:+: stripSp (normWs s) := by
  unfold splitTitleCompany
  by_cases he : (stripSp (normWs s)).isEmpty = true
  · simp only [he, if_true]
    constructor <;> exact List.nil_infix
  · simp only [he, Bool.false_eq_true, if_false]
    cases h1 : splitFirst ((" @ ").data) (stripSp (normWs s)) with
    | some p =>
      obtain ⟨l0, r0⟩ := p
      have hs := splitFirst_sound h1
      refine ⟨(trimField_isInf l0).trans ⟨[], (" @ ").data ++ r0, by simp [hs]⟩,
        (trimField_isInf r0).trans ⟨l0 ++ (" @ ").data, [], by simp [hs]⟩⟩
    | none =>
      cases h2 : splitFirst ((" at ").data) (stripSp (normWs s)) with
      | some p =>
        obtain ⟨l0, r0⟩ := p
        have hs := splitFirst_sound h2
        refine ⟨(trimField_isInf l0).trans ⟨[], (" at ").data ++ r0, by simp [hs]⟩,
          (trimField_isInf r0).trans ⟨l0 ++ (" at ").data, [], by simp [hs]⟩⟩
      | none => exact ⟨List.infix_refl _, List.nil_infix⟩

/-- The whitespace-normalized content of a record's joined body lines — the
string of which `title` and `company` are substrings. -/
def bodyContent (body : List Line) : Line :=
  stripSp (normWs (stripSp (joinSp body)))

theorem seg_fields_isInf : ∀ (n : Nat) (ls : List Line), ls.length ≤ n →
    ∀ r ∈ segmentLines ls, ∃ body : List Line, body <:+: ls ∧
      r.title <:+: bodyContent body ∧ r.company <:+: bodyContent body ∧
      (r.connected_date = [] ∨ ∃ d ∈ ls, r.connected_date <:+: d) := by
  intro n
  induction n with
  | zero =>
    intro ls hl r hr
    have h0 : ls = [] := List.eq_nil_of_length_eq_zero (Nat.le_zero.mp hl)
    subst h0
    rw [seg_nil] at hr
    exact absurd hr (List.not_mem_nil _)
  | succ n ih =>
    intro ls hl r hr
    cases ls with
    | nil =>
      rw [seg_nil] at hr
      exact absurd hr (List.not_mem_nil _)
    | cons l rest =>
      by_cases hc : connMatch l = true
      · rw [seg_skip hc] at hr
        obtain ⟨body, hb, ht, hco, hdd⟩ := ih rest (by simp at hl; omega) r hr
        refine ⟨body, hb.trans ⟨[l], [], by simp⟩, ht, hco, ?_⟩
        rcases hdd with hdd | ⟨d, hd1, hd2⟩
        · exact Or.inl hdd
        · exact Or.inr ⟨d, List.mem_cons_of_mem _ hd1, hd2⟩
      · have hc' : connMatch l = false := by simpa using hc
        cases hd : rest.dropWhile (fun x => !connMatch x) with
        | nil =>
          rw [seg_end hc' hd] at hr
          split at hr
          · rw [List.mem_singleton.mp hr]
            refine ⟨rest.takeWhile (fun x => !connMatch x), ?_, ?_, ?_, Or.inl rfl⟩
            · obtain ⟨u, hu⟩ := rest.takeWhile_prefix (fun x => !connMatch x)
              exact ⟨[l], u, by simp [hu]⟩
            · exact (split_isInf _).1
            · exact (split_isInf _).2
          · exact absurd hr (List.not_mem_nil _)
        | cons d rest2 =>
          have hdinrest : d ∈ rest := by
            have : d ∈ rest.dropWhile (fun y => !connMatch y) := by
              rw [hd]
              exact List.mem_cons_self _ _
            exact (rest.dropWhile_suffix (fun y => !connMatch y)).sublist.subset this
          rw [seg_date hc' hd] at hr
          rcases List.mem_append.mp hr with hr | hr
          · split at hr
            · rw [List.mem_singleton.mp hr]
              refine ⟨rest.takeWhile (fun x => !connMatch x), ?_, ?_, ?_, ?_⟩
              · obtain ⟨u, hu⟩ := rest.takeWhile_prefix (fun x => !connMatch x)
                exact ⟨[l], u, by simp [hu]⟩
              · exact (split_isInf _).1
              · exact (split_isInf _).2
              · refine Or.inr ⟨d, List.mem_cons_of_mem _ hdinrest, ?_⟩
                exact (stripP_isInf _ _).trans (csSub_isInf d)
            · exact absurd hr (List.not_mem_nil _)
          · have hlen : rest2.length ≤ n := by
              have hle := (rest.dropWhile_suffix (fun x => !connMatch x)).sublist.length_le
              rw [hd] at hle
              simp at hle hl
              omega
            have hsub2 : rest2 <:+ rest := by
              have h5 : rest.dropWhile (fun y => !connMatch y) <:+ rest :=
                rest.dropWhile_suffix _
              rw [hd] at h5
              exact List.IsSuffix.trans ⟨[d], rfl⟩ h5
            obtain ⟨body, hb, ht, hco, hdd⟩ := ih rest2 hlen r hr
            refine ⟨body, hb.trans (hsub2.isInfix.trans ⟨[l], [], by simp⟩), ht, hco, ?_⟩
            rcases hdd with hdd | ⟨d2, hd1, hd2⟩
            · exact Or.inl hdd
            · exact Or.inr ⟨d2, List.mem_cons_of_mem _ (hsub2.sublist.subset hd1), hd2⟩

/-! ### Claims -/

/-- C1 (amended): every record emitted by the extraction pipeline has a
non-empty name, and that name matches neither the first header pattern
(`Connections | LinkedIn`) nor the footer pattern — the final sanity filter
checks only `HEADER_PATTERNS[0]` and `FOOTER_PATTERN`, not the other two
header patterns. -/
theorem C1_kept_names (pages : List (List Line)) (r : ConnectionRecord)
    (h : r ∈ extractFromPdf pages) :
    r.name ≠ [] ∧ headerPat0 r.name = false ∧ footerPat r.name = false := by
  obtain ⟨p, hp, hr⟩ := extract_mem h
  exact keepName_spec (seg_keep_inv (dropHeaderFooterAndMessage p).length _ (le_refl _) r hr)

/-- C1 (counterexample): stripping an inline `Message` token can expose a
line matching the `Sort by:` header pattern; such a line survives
sanitization and is emitted as a record name, because the final sanity
filter checks only the first header pattern.  So an emitted name CAN match
a header pattern, contrary to the claim. -/
theorem C1_counterexample :
    extractFromPdf [[("Message Sort by: name").data]]
      = [⟨("Sort by: name").data, [], [], []⟩] ∧
    headerAny (("Sort by: name").data) = true := by
  refine ⟨?_, by decide⟩
  rw [extract_single_page,
    show dropHeaderFooterAndMessage [("Message Sort by: name").data]
      = [("Sort by: name").data] from by decide]
  exact segmentLines_eval (by decide)

theorem C1_witness :
    (ConnectionRecord.mk (("Bob").data) [] [] (("May 1, 2020").data)).name ≠ [] ∧
    headerPat0 (ConnectionRecord.mk (("Bob").data) [] [] (("May 1, 2020").data)).name = false ∧
    footerPat (ConnectionRecord.mk (("Bob").data) [] [] (("May 1, 2020").data)).name = false :=
  C1_kept_names [[("Bob").data, ("Connected on May 1, 2020").data]] _ (by
    rw [extract_single_page,
      show dropHeaderFooterAndMessage [("Bob").data, ("Connected on May 1, 2020").data]
        = [("Bob").data, ("Connected on May 1, 2020").data] from by decide,
      segmentLines_eval (r := [⟨("Bob").data, [], [], ("May 1, 2020").data⟩]) (by decide)]
    exact List.mem_singleton.mpr rfl)

/-- C2 (code bug): for a date line whose `Connected on` prefix is not in the
exact letter case of the literal (here all lower-case), `CONNECTED_ON`
(compiled with `re.I`) still ends body accumulation, but the date-extraction
substitution `re.sub(r"^Connected on\s+", "", line)` is case-SENSITIVE and
removes nothing, so the emitted `connected_date` is the whole line instead
of the remainder after the prefix. -/
theorem C2_case_mismatch_eval :
    extractFromPdf [[("John Smith").data, ("connected on July 1, 2024").data]]
      = [⟨("John Smith").data, [], [], ("connected on July 1, 2024").data⟩] := by
  rw [extract_single_page,
    show dropHeaderFooterAndMessage
        [("John Smith").data, ("connected on July 1, 2024").data]
      = [("John Smith").data, ("connected on July 1, 2024").data] from by decide]
  exact segmentLines_eval (by decide)

/-- C7: a line matching the `Connected on` pattern reached while the
segmenter expects a name is skipped: segmentation continues on the
remaining lines, no record is emitted for it and no error is raised. -/
theorem C7_stray_date_skipped (l : Line) (rest : List Line)
    (h : connMatch l = true) :
    segmentLines (l :: rest) = segmentLines rest := seg_skip h

theorem C7_witness :
    segmentLines [("Connected on May 1, 2020").data, ("Carol").data]
      = segmentLines [("Carol").data] :=
  C7_stray_date_skipped _ _ (by decide)

/-- C9: no emitted record's name matches the `Connected on` prefix pattern:
every name is the strip of a sanitized line (sanitized lines are already
stripped) which the date-marker pattern did not match. -/
theorem C9_name_never_date (pages : List (List Line)) (r : ConnectionRecord)
    (h : r ∈ extractFromPdf pages) : connMatch r.name = false := by
  obtain ⟨p, hp, hr⟩ := extract_mem h
  obtain ⟨l, hl, hcl, hnm⟩ :=
    seg_name_src (dropHeaderFooterAndMessage p).length _ (le_refl _) r hr
  rw [hnm, (sanitize_out_eq hl).1]
  exact hcl

theorem C9_witness :
    connMatch (ConnectionRecord.mk (("Ann").data) [] [] (("May 3, 2021").data)).name
      = false :=
  C9_name_never_date [[("Ann").data, ("Connected on May 3, 2021").data]] _ (by
    rw [extract_single_page,
      show dropHeaderFooterAndMessage [("Ann").data, ("Connected on May 3, 2021").data]
        = [("Ann").data, ("Connected on May 3, 2021").data] from by decide,
      segmentLines_eval (r := [⟨("Ann").data, [], [], ("May 3, 2021").data⟩]) (by decide)]
    exact List.mem_singleton.mpr rfl)

/-- C10: the per-page segmentation loop terminates on every finite line
list: every outer iteration consumes at least one line, so a budget of
`lines.length` outer iterations always reaches the end of the lines, and the
fuelled loop computes exactly the records of the total function
`segmentLines`. -/
theorem C10_loop_terminates (ls : List Line) (fuel : Nat) (h : ls.length ≤ fuel) :
    loopFuel fuel ls = some (segmentLines ls) := loopFuel_complete fuel ls h

theorem C10_witness :
    loopFuel 2 [("Eve").data, ("Connected on May 2, 2021").data]
      = some (segmentLines [("Eve").data, ("Connected on May 2, 2021").data]) :=
  C10_loop_terminates _ 2 (by decide)

/-- C3 (amended): the sanitizer is not idempotent in general.  A second pass
over its own output re-strips nothing and removes no further `Message`
tokens, but it does drop exactly those output lines that match a header or
footer pattern — lines that can arise when stripping an inline `Message`
token exposes a header/footer-shaped remainder.  Idempotence therefore holds
exactly when no sanitized line matches a header/footer pattern. -/
theorem C3_second_pass_filter (xs : List Line) :
    dropHeaderFooterAndMessage (dropHeaderFooterAndMessage xs)
      = (dropHeaderFooterAndMessage xs).filter
          (fun s => !headerAny s && !footerPat s) := by
  apply filterMap_sanitize_of_clean
  intro s hs
  obtain ⟨h1, h2, h3⟩ := sanitize_out_eq hs
  exact sanitizeLine_of_clean h1 h2 h3

/-- C3 (counterexample): sanitizing `"Message Sort by: name"` once yields
`"Sort by: name"` (the header check ran before the `Message` token was
stripped), and sanitizing that output again drops it, so the sanitizer is
not idempotent. -/
theorem C3_counterexample :
    dropHeaderFooterAndMessage [("Message Sort by: name").data]
      = [("Sort by: name").data] ∧
    dropHeaderFooterAndMessage (dropHeaderFooterAndMessage
        [("Message Sort by: name").data]) = [] ∧
    dropHeaderFooterAndMessage (dropHeaderFooterAndMessage
        [("Message Sort by: name").data])
      ≠ dropHeaderFooterAndMessage [("Message Sort by: name").data] := by
  refine ⟨by decide, by decide, ?_⟩
  intro h
  rw [show dropHeaderFooterAndMessage [("Message Sort by: name").data]
      = [("Sort by: name").data] from by decide] at h
  exact absurd h (by decide)

/-- C4: the field splitter splits the whitespace-normalized, trimmed string
it operates on at the FIRST occurrence of `" @ "` whenever one occurs (even
when `" at "` occurs earlier), and otherwise at the first occurrence of
`" at "`; in particular `"Engineer at DataCo at Night Shift"` yields
`("Engineer", "DataCo at Night Shift")`. -/
theorem C4_split_preference :
    (∀ s : Line,
      (∀ l r : Line, stripSp (normWs s) = l ++ (" @ ").data ++ r →
        ∃ l0 r0 : Line, stripSp (normWs s) = l0 ++ (" @ ").data ++ r0 ∧
          (∀ l' r' : Line, stripSp (normWs s) = l' ++ (" @ ").data ++ r' →
            l0.length ≤ l'.length) ∧
          splitTitleCompany s = (trimField l0, trimField r0)) ∧
      ((∀ l r : Line, stripSp (normWs s) ≠ l ++ (" @ ").data ++ r) →
        ∀ l r : Line, stripSp (normWs s) = l ++ (" at ").data ++ r →
        ∃ l0 r0 : Line, stripSp (normWs s) = l0 ++ (" at ").data ++ r0 ∧
          (∀ l' r' : Line, stripSp (normWs s) = l' ++ (" at ").data ++ r' →
            l0.length ≤ l'.length) ∧
          splitTitleCompany s = (trimField l0, trimField r0))) ∧
    splitTitleCompany ("Engineer at DataCo at Night Shift").data
      = (("Engineer").data, ("DataCo at Night Shift").data) := by
  refine ⟨fun s => ⟨?_, ?_⟩, by decide⟩
  · intro l r hdec
    have hsome := splitFirst_isSome_of hdec
    obtain ⟨⟨l0, r0⟩, hsf⟩ := Option.isSome_iff_exists.mp hsome
    refine ⟨l0, r0, splitFirst_sound hsf, splitFirst_min hsf, ?_⟩
    have hne : (stripSp (normWs s)).isEmpty = false := by
      rw [splitFirst_sound hsf]
      simp
    unfold splitTitleCompany
    simp only [hne, Bool.false_eq_true, if_false, hsf]
  · intro hno l r hdec
    have hnone : splitFirst ((" @ ").data) (stripSp (normWs s)) = none :=
      splitFirst_none_of hno
    have hsome := splitFirst_isSome_of hdec
    obtain ⟨⟨l0, r0⟩, hsf⟩ := Option.isSome_iff_exists.mp hsome
    refine ⟨l0, r0, splitFirst_sound hsf, splitFirst_min hsf, ?_⟩
    have hne : (stripSp (normWs s)).isEmpty = false := by
      rw [splitFirst_sound hsf]
      simp
    unfold splitTitleCompany
    simp only [hne, Bool.false_eq_true, if_false, hnone, hsf]

theorem C4_witness :
    ∃ l0 r0 : Line, stripSp (normWs ("Dev @ Co").data) = l0 ++ (" @ ").data ++ r0 ∧
      (∀ l' r' : Line, stripSp (normWs ("Dev @ Co").data)
        = l' ++ (" @ ").data ++ r' → l0.length ≤ l'.length) ∧
      splitTitleCompany ("Dev @ Co").data = (trimField l0, trimField r0) :=
  (C4_split_preference.1 (("Dev @ Co").data)).1 (("Dev").data) (("Co").data)
    (by decide)

/-- C5 (amended): when the sanitized lines end while the segmenter is
accumulating body lines — a name `nm` was captured and every following line
is a body line, with no trailing `Connected on` line — a record is still
emitted with `connected_date = ""` and the body split as usual, PROVIDED the
captured name passes the final sanity filter (non-empty and matching
neither the `Connections | LinkedIn` pattern nor the footer pattern);
otherwise the candidate is discarded and nothing is emitted. -/
theorem C5_truncated_record (nm : Line) (buf : List Line)
    (hnm : connMatch nm = false) (hbuf : ∀ b ∈ buf, connMatch b = false)
    (h1 : stripSp nm ≠ []) (h2 : headerPat0 (stripSp nm) = false)
    (h3 : footerPat (stripSp nm) = false) :
    segmentLines (nm :: buf) =
      [⟨stripSp nm,
        (splitTitleCompany (stripSp (joinSp buf))).1,
        (splitTitleCompany (stripSp (joinSp buf))).2, []⟩] := by
  have htw : buf.takeWhile (fun x => !connMatch x) = buf :=
    takeWhile_eq_self_of_all _ _ (fun x hx => by simp [hbuf x hx])
  have hdw : buf.dropWhile (fun x => !connMatch x) = [] :=
    dropWhile_eq_nil_of_all _ _ (fun x hx => by simp [hbuf x hx])
  have hkeep : keepName (stripSp nm) = true := by
    simp only [keepName, h2, h3, Bool.not_false, Bool.and_true]
    simpa using h1
  rw [seg_end hnm hdw, htw, if_pos hkeep]

/-- C5 (counterexample): a sanitized line sequence that ends in
body-accumulation with a captured name need NOT produce a record: inline
`Message` stripping can expose a `Connections | LinkedIn` header line, which
survives sanitization, is captured as a name, and is then discarded by the
final sanity filter, so nothing is emitted. -/
theorem C5_counterexample :
    dropHeaderFooterAndMessage [("Message Connections | LinkedIn x").data]
      = [("Connections | LinkedIn x").data] ∧
    connMatch (("Connections | LinkedIn x").data) = false ∧
    extractFromPdf [[("Message Connections | LinkedIn x").data]] = [] := by
  refine ⟨by decide, by decide, ?_⟩
  rw [extract_single_page,
    show dropHeaderFooterAndMessage [("Message Connections | LinkedIn x").data]
      = [("Connections | LinkedIn x").data] from by decide]
  exact segmentLines_eval (by decide)

theorem C5_witness :
    segmentLines [("Dana").data, ("Engineer @ Acme").data] =
      [⟨stripSp (("Dana").data),
        (splitTitleCompany (stripSp (joinSp [("Engineer @ Acme").data]))).1,
        (splitTitleCompany (stripSp (joinSp [("Engineer @ Acme").data]))).2, []⟩] :=
  C5_truncated_record (("Dana").data) [("Engineer @ Acme").data]
    (by decide) (by decide) (by decide) (by decide) (by decide)

/-- C6 (amended): for every body string whose whitespace-normalized trimmed
form contains neither `" @ "` nor `" at "`, the splitter returns that
normalized trimmed form as the title and the empty string as the company;
in particular the empty or all-whitespace string yields `("", "")`.  (The
original claim's "trimmed whole string" is wrong: internal whitespace runs
are also collapsed, and the separator tests are made on the normalized
form.) -/
theorem C6_no_separator (s : Line)
    (h1 : ∀ l r : Line, stripSp (normWs s) ≠ l ++ (" @ ").data ++ r)
    (h2 : ∀ l r : Line, stripSp (normWs s) ≠ l ++ (" at ").data ++ r) :
    splitTitleCompany s = (stripSp (normWs s), []) := by
  by_cases he : (stripSp (normWs s)).isEmpty = true
  · have h0 : stripSp (normWs s) = [] := by simpa using he
    simp [splitTitleCompany, he, h0]
  · simp [splitTitleCompany, he, splitFirst_none_of h1, splitFirst_none_of h2]

/-- C6 (counterexample): `"A  B"` (two inner spaces) contains neither
`" @ "` nor `" at "`, yet the splitter does not return the trimmed whole
string as the title — it returns the whitespace-NORMALIZED string
`"A B"`. -/
theorem C6_counterexample :
    (∀ l r : Line, ("A  B").data ≠ l ++ (" @ ").data ++ r) ∧
    (∀ l r : Line, ("A  B").data ≠ l ++ (" at ").data ++ r) ∧
    splitTitleCompany ("A  B").data ≠ (stripSp (("A  B").data), ([] : Line)) := by
  refine ⟨?_, ?_, by decide⟩
  · intro l r he
    have h := splitFirst_isSome_of he
    rw [show splitFirst ((" @ ").data) (("A  B").data) = none from by decide] at h
    exact absurd h (by simp)
  · intro l r he
    have h := splitFirst_isSome_of he
    rw [show splitFirst ((" at ").data) (("A  B").data) = none from by decide] at h
    exact absurd h (by simp)

theorem C6_witness :
    splitTitleCompany ("Data Scientist").data
      = (stripSp (normWs (("Data Scientist").data)), ([] : Line)) :=
  C6_no_separator (("Data Scientist").data)
    (fun l r he => by
      have h := splitFirst_isSome_of he
      rw [show splitFirst ((" @ ").data)
          (stripSp (normWs (("Data Scientist").data))) = none from by decide] at h
      exact absurd h (by simp))
    (fun l r he => by
      have h := splitFirst_isSome_of he
      rw [show splitFirst ((" at ").data)
          (stripSp (normWs (("Data Scientist").data))) = none from by decide] at h
      exact absurd h (by simp))

/-- C8 (amended): each emitted record's `title` and `company` are
substrings of the whitespace-normalized, space-joined body lines of that
record (a contiguous block of the page's sanitized lines), and its
`connected_date` is empty or a trimmed substring of one of the page's
sanitized lines.  (The original claim — substrings of the original
concatenated line content — fails because whitespace runs are collapsed
before splitting.) -/
theorem C8_fields_are_substrings (pages : List (List Line)) (r : ConnectionRecord)
    (h : r ∈ extractFromPdf pages) :
    ∃ p ∈ pages, ∃ body : List Line,
      body <:+: dropHeaderFooterAndMessage p ∧
      r.title <:+: bodyContent body ∧ r.company <:+: bodyContent body ∧
      (r.connected_date = [] ∨
        ∃ d ∈ dropHeaderFooterAndMessage p, r.connected_date <:+: d) := by
  obtain ⟨p, hp, hr⟩ := extract_mem h
  obtain ⟨body, hb, ht, hco, hdd⟩ :=
    seg_fields_isInf (dropHeaderFooterAndMessage p).length _ (le_refl _) r hr
  exact ⟨p, hp, body, hb, ht, hco, hdd⟩

/-- C8 (counterexample): with body line `"Dev  Ops @ X"` (two inner
spaces), the emitted title is the normalized `"Dev Ops"`, which is not a
trimmed substring of the original concatenated line content. -/
theorem C8_counterexample :
    extractFromPdf [[("Jane").data, ("Dev  Ops @ X").data,
        ("Connected on May 1, 2020").data]]
      = [⟨("Jane").data, ("Dev Ops").data, ("X").data, ("May 1, 2020").data⟩] ∧
    ¬ ∃ u : Line, u <:+: joinSp [("Jane").data, ("Dev  Ops @ X").data,
        ("Connected on May 1, 2020").data] ∧ stripSp u = ("Dev Ops").data := by
  constructor
  · rw [extract_single_page,
      show dropHeaderFooterAndMessage [("Jane").data, ("Dev  Ops @ X").data,
          ("Connected on May 1, 2020").data]
        = [("Jane").data, ("Dev  Ops @ X").data,
          ("Connected on May 1, 2020").data] from by decide]
    exact segmentLines_eval (by decide)
  · rintro ⟨u, hu, hs⟩
    have h1 : ("Dev Ops").data <:+: u := hs ▸ stripP_isInf isSpace u
    have h2 := h1.trans hu
    exact absurd h2 (by decide)

theorem C8_witness :
    ∃ p ∈ [[("Rae").data, ("Connected on May 6, 2022").data]],
      ∃ body : List Line, body <:+: dropHeaderFooterAndMessage p ∧
        (ConnectionRecord.mk (("Rae").data) [] [] (("May 6, 2022").data)).title
          <:+: bodyContent body ∧
        (ConnectionRecord.mk (("Rae").data) [] [] (("May 6, 2022").data)).company
          <:+: bodyContent body ∧
        ((ConnectionRecord.mk (("Rae").data) [] [] (("May 6, 2022").data)).connected_date
            = [] ∨
          ∃ d ∈ dropHeaderFooterAndMessage p,
            (ConnectionRecord.mk (("Rae").data) [] [] (("May 6, 2022").data)).connected_date
              <:+: d) :=
  C8_fields_are_substrings [[("Rae").data, ("Connected on May 6, 2022").data]] _ (by
    rw [extract_single_page,
      show dropHeaderFooterAndMessage [("Rae").data, ("Connected on May 6, 2022").data]
        = [("Rae").data, ("Connected on May 6, 2022").data] from by decide,
      segmentLines_eval (r := [⟨("Rae").data, [], [], ("May 6, 2022").data⟩]) (by decide)]
    exact List.mem_singleton.mpr rfl)
